import Mathlib

/-!
Verification of the ticker-aggregation library (src/lib.rs).

The embedding mirrors the Rust source:
- `NetworkName` is the three-variant enum.
- `TRACK` is the static symbol table, an ordered list of (symbol, network) pairs.
- `name_from_symbolGen` embeds `name_from_symbol`: a memoized lookup over a table,
  generalized over the table so that table-independence of the cache-hit path
  (the claim that a hit performs no table scan) is expressible. The Rust panic
  on an unknown symbol is embedded as `Except.error AggError.UnknownSymbol`.
- `test` embeds the aggregator `test`: a left fold threading the memo through the
  batch, accumulating per-network (count, price sum), then dividing sum by count.
  The Rust `u16` count is embedded as a natural number reduced modulo 2^16 at each
  increment (release-mode wrapping semantics); the `f32` prices are embedded as
  exact rationals, so the sum-then-divide mean is exact where the float result
  holds within epsilon. Hash maps are embedded as association lists with
  first-match lookup; result maps are compared through `accLookup`, never through
  entry order, since a hash map carries no order.
-/

namespace BHTest

inductive NetworkName where
  | N1
  | N2
  | N3
deriving DecidableEq, Repr

instance : Fintype NetworkName where
  elems := {NetworkName.N1, NetworkName.N2, NetworkName.N3}
  complete := fun x => by cases x <;> decide

/-- The static symbol table `TRACK` from the source, in declared order. -/
def TRACK : List (String × NetworkName) :=
  [("S1", NetworkName.N1), ("S2", NetworkName.N2), ("s3", NetworkName.N3)]

/-- The single error kind: the source panics with expect when a symbol matches
no table entry; the panic is embedded as this error value. -/
inductive AggError where
  | UnknownSymbol
deriving DecidableEq, Repr

structure Ticker where
  symbol : String
  price : ℚ
deriving DecidableEq, Repr

/-- The memo table (the source's `HashMap<&str, NetworkName>`), embedded as an
association list; an insert prepends, and lookup takes the first match. -/
abbrev Memo := List (String × NetworkName)

def memoLookup : Memo → String → Option NetworkName
  | [], _ => none
  | (k, v) :: rest, s => if k = s then some v else memoLookup rest s

/-- `name_from_symbol`, generalized over the table it scans: if the symbol is
cached return the cached value, else scan the table in order for the first
entry whose symbol is equal (case-sensitive), insert it, and return it; fail
when no entry matches. `name_from_symbol` instantiates the table to `TRACK`. -/
def name_from_symbolGen (table : List (String × NetworkName)) (symbol : String)
    (cache : Memo) : Except AggError (NetworkName × Memo) :=
  match memoLookup cache symbol with
  | some v => Except.ok (v, cache)
  | none =>
    match table.find? (fun p => decide (p.1 = symbol)) with
    | some (key, value) => Except.ok (value, (key, value) :: cache)
    | none => Except.error AggError.UnknownSymbol

def name_from_symbol (symbol : String) (cache : Memo) :
    Except AggError (NetworkName × Memo) :=
  name_from_symbolGen TRACK symbol cache

/-- The per-network accumulator map of `test`: network to (count, price sum). -/
abbrev Acc := List (NetworkName × ℕ × ℚ)

/-- The modulus of the source's `u16` running count. -/
def U16MOD : ℕ := 65536

/-- One fold step of `test` on the accumulator: the entry API inserts the
default (0, 0) when the key is absent, then the count is incremented (u16,
wrapping modulo 2^16) and the price added to the sum. -/
def accUpdate : Acc → NetworkName → ℚ → Acc
  | [], name, price => [(name, (0 + 1) % U16MOD, 0 + price)]
  | (k, c, s) :: rest, name, price =>
    if k = name then (k, (c + 1) % U16MOD, s + price) :: rest
    else (k, c, s) :: accUpdate rest name price

/-- The fold in `test`: resolve each ticker through the shared memo, abort on
the first unknown symbol, otherwise accumulate into the per-network map. -/
def runFold : List Ticker → Memo → Acc → Except AggError (Acc × Memo)
  | [], cache, res => Except.ok (res, cache)
  | t :: rest, cache, res =>
    match name_from_symbol t.symbol cache with
    | Except.error e => Except.error e
    | Except.ok (name, cache2) => runFold rest cache2 (accUpdate res name t.price)

/-- The finalization map of `test`: divide each running sum by the count. -/
def finalize (res : Acc) : Acc :=
  res.map (fun e => (e.1, e.2.1, e.2.2 / (e.2.1 : ℚ)))

/-- The aggregator `test` from the source: fold the batch with a fresh memo and
a fresh accumulator, then replace each running sum by the mean. -/
def test (tickers : List Ticker) : Except AggError Acc :=
  match runFold tickers [] [] with
  | Except.error e => Except.error e
  | Except.ok (res, _) => Except.ok (finalize res)

/-- Spec-side resolution: the network of the first `TRACK` entry whose symbol
matches exactly, if any. -/
def resolveSpec (s : String) : Option NetworkName :=
  (TRACK.find? (fun p => decide (p.1 = s))).map Prod.snd

/-- Number of tickers of a batch whose symbol resolves to the given network. -/
def countFor (k : NetworkName) (tickers : List Ticker) : ℕ :=
  (tickers.filter (fun t => decide (resolveSpec t.symbol = some k))).length

/-- Sum of the prices of the tickers of a batch resolving to the given network. -/
def sumFor (k : NetworkName) (tickers : List Ticker) : ℚ :=
  ((tickers.filter (fun t => decide (resolveSpec t.symbol = some k))).map
    Ticker.price).sum

/-- Lookup in the accumulator association list. -/
def accLookup : Acc → NetworkName → Option (ℕ × ℚ)
  | [], _ => none
  | (k, c, s) :: rest, name => if k = name then some (c, s) else accLookup rest name

/-- The networks present in an accumulator. -/
def accKeys (res : Acc) : List NetworkName := res.map Prod.fst

/-- Consistency of a memo with the static table: every cached pair agrees with
first-match resolution over `TRACK`. -/
def MemoOK (cache : Memo) : Prop := ∀ p ∈ cache, resolveSpec p.1 = some p.2

/-- Effect on an accumulator-lookup result of absorbing a further portion of
the batch: count advances modulo 2^16, the sum advances exactly. -/
def combineOpt (old : Option (ℕ × ℚ)) (n : ℕ) (q : ℚ) : Option (ℕ × ℚ) :=
  match old with
  | some cs => some ((cs.1 + n) % U16MOD, cs.2 + q)
  | none => if n = 0 then none else some (n % U16MOD, q)

/-- One resolution call in a sequence of resolve calls sharing a memo: the memo
is replaced by the updated memo on success and untouched on failure. -/
def resolveStep (memo : Memo) (s : String) : Memo :=
  match name_from_symbol s memo with
  | Except.ok (_, memo2) => memo2
  | Except.error _ => memo

/-- The memo produced by a sequence of resolve calls starting from the empty
memo. -/
def resolveMany (symbols : List String) : Memo :=
  symbols.foldl resolveStep []

/-- The concrete batch of the test scenario, with f32 prices as exact
rationals. -/
def batch7 : List Ticker :=
  [⟨"S1", 1/10⟩, ⟨"S1", 2/10⟩, ⟨"S1", 3/10⟩,
   ⟨"S2", 4/10⟩, ⟨"S2", 5/10⟩, ⟨"S2", 6/10⟩,
   ⟨"s3", 7/10⟩, ⟨"s3", 8/10⟩]

/-- A batch of 2^16 tickers all resolving to N1: enough to wrap the u16 count. -/
def bigBatch : List Ticker := List.replicate 65536 ⟨"S1", 1⟩

/-- A cached pair is an entry of the memo. -/
lemma memoLookup_mem {m : Memo} {s : String} {v : NetworkName}
    (h : memoLookup m s = some v) : (s, v) ∈ m := by
  induction m with
  | nil => simp [memoLookup] at h
  | cons p rest ih =>
    obtain ⟨k, w⟩ := p
    by_cases hk : k = s
    · subst hk
      simp [memoLookup] at h
      subst h
      exact List.mem_cons_self _ _
    · simp [memoLookup, hk] at h
      exact List.mem_cons_of_mem _ (ih h)

/-- Spec-side resolution only returns networks from the image of the table. -/
lemma resolveSpec_mem_image {s : String} {v : NetworkName}
    (h : resolveSpec s = some v) : v ∈ TRACK.map Prod.snd := by
  unfold resolveSpec at h
  obtain ⟨p, hp, hv⟩ := Option.map_eq_some'.mp h
  exact hv ▸ List.mem_map_of_mem Prod.snd (List.mem_of_find?_eq_some hp)

/-- A cache hit returns the cached value, leaves the memo unchanged, and does
not depend on the table at all (no table scan occurs). -/
lemma resolve_hit {cache : Memo} {s : String} {v : NetworkName}
    (h : memoLookup cache s = some v) (table : List (String × NetworkName)) :
    name_from_symbolGen table s cache = Except.ok (v, cache) := by
  unfold name_from_symbolGen
  rw [h]

/-- A successful resolution over a memo consistent with the table agrees with
spec-side resolution, keeps the memo consistent, and changes the memo exactly
by caching the resolved pair on a miss. -/
lemma resolve_sound {cache cache2 : Memo} {s : String} {v : NetworkName}
    (hm : MemoOK cache) (h : name_from_symbol s cache = Except.ok (v, cache2)) :
    resolveSpec s = some v ∧ MemoOK cache2 ∧
      (memoLookup cache s = some v → cache2 = cache) ∧
      (memoLookup cache s = none → cache2 = (s, v) :: cache) := by
  unfold name_from_symbol name_from_symbolGen at h
  cases hc : memoLookup cache s with
  | some w =>
    rw [hc] at h
    have h2 : (w, cache) = (v, cache2) := Except.ok.inj h
    obtain ⟨hv, hcache⟩ := Prod.ext_iff.mp h2
    simp only at hv hcache
    subst hv
    subst hcache
    refine ⟨hm _ (memoLookup_mem hc), hm, fun _ => rfl, fun hnone => ?_⟩
    simp [hc] at hnone
  | none =>
    rw [hc] at h
    cases hf : TRACK.find? (fun p => decide (p.1 = s)) with
    | none =>
      rw [hf] at h
      exact absurd h (by simp)
    | some p =>
      obtain ⟨key, value⟩ := p
      rw [hf] at h
      have h2 : (value, (key, value) :: cache) = (v, cache2) := Except.ok.inj h
      obtain ⟨hv, hcache⟩ := Prod.ext_iff.mp h2
      simp only at hv hcache
      subst hv
      have hkey : key = s := by
        have := List.find?_some hf
        simpa using this
      have hres : resolveSpec s = some value := by
        unfold resolveSpec
        rw [hf]
        rfl
      refine ⟨hres, ?_, ?_, ?_⟩
      · intro q hq
        rw [← hcache] at hq
        rcases List.mem_cons.mp hq with hq | hq
        · subst hq
          rw [hkey]
          exact hres
        · exact hm _ hq
      · intro hsome
        simp [hc] at hsome
      · intro _
        rw [← hcache, hkey]

/-- Over a memo consistent with the table, a symbol that spec-resolves is
resolved successfully to the same network, and the memo stays consistent. -/
lemma resolve_complete {cache : Memo} {s : String} {v : NetworkName}
    (hm : MemoOK cache) (h : resolveSpec s = some v) :
    ∃ cache2, name_from_symbol s cache = Except.ok (v, cache2) ∧ MemoOK cache2 := by
  unfold name_from_symbol name_from_symbolGen
  cases hc : memoLookup cache s with
  | some w =>
    have hw : resolveSpec s = some w := hm _ (memoLookup_mem hc)
    rw [h] at hw
    obtain rfl : v = w := Option.some.inj hw
    exact ⟨cache, rfl, hm⟩
  | none =>
    unfold resolveSpec at h
    obtain ⟨p, hp, hv⟩ := Option.map_eq_some'.mp h
    obtain ⟨key, value⟩ := p
    rw [hp]
    have hkey : key = s := by
      have := List.find?_some hp
      simpa using this
    have hv2 : value = v := by simpa using hv
    subst hv2
    refine ⟨(key, value) :: cache, rfl, fun q hq => ?_⟩
    rcases List.mem_cons.mp hq with hq | hq
    · subst hq
      simp only [hkey]
      unfold resolveSpec
      rw [hp]
      rfl
    · exact hm _ hq

/-- Over a memo consistent with the table, a symbol with no table entry makes
resolution fail with UnknownSymbol. -/
lemma resolve_fail {cache : Memo} {s : String}
    (hm : MemoOK cache) (h : resolveSpec s = none) :
    name_from_symbol s cache = Except.error AggError.UnknownSymbol := by
  unfold name_from_symbol name_from_symbolGen
  cases hc : memoLookup cache s with
  | some w =>
    have hw : resolveSpec s = some w := hm _ (memoLookup_mem hc)
    rw [h] at hw
    exact absurd hw (by simp)
  | none =>
    have hf : TRACK.find? (fun p => decide (p.1 = s)) = none := by
      unfold resolveSpec at h
      exact Option.map_eq_none'.mp h
    rw [hf]

/-- A successful accumulator lookup exposes an entry of the accumulator. -/
lemma accLookup_mem {res : Acc} {k : NetworkName} {cs : ℕ × ℚ}
    (h : accLookup res k = some cs) : (k, cs) ∈ res := by
  induction res with
  | nil => simp [accLookup] at h
  | cons e rest ih =>
    obtain ⟨k2, c, s⟩ := e
    by_cases hk : k2 = k
    · subst hk
      simp [accLookup] at h
      simp [h]
    · simp [accLookup, hk] at h
      exact List.mem_cons_of_mem _ (ih h)

/-- The lookup misses exactly on the networks absent from the key list. -/
lemma accLookup_eq_none_iff {res : Acc} {k : NetworkName} :
    accLookup res k = none ↔ k ∉ accKeys res := by
  induction res with
  | nil => simp [accLookup, accKeys]
  | cons e rest ih =>
    obtain ⟨k2, c, s⟩ := e
    by_cases hk : k2 = k
    · subst hk
      simp [accLookup, accKeys]
    · simp [accLookup, accKeys, hk, ih]
      intro h
      exact fun h2 => hk h2.symm

/-- Under distinct keys, every entry is recovered by the lookup on its key. -/
lemma accLookup_of_mem {res : Acc} {e : NetworkName × ℕ × ℚ}
    (hnd : (accKeys res).Nodup) (h : e ∈ res) : accLookup res e.1 = some e.2 := by
  induction res with
  | nil => simp at h
  | cons f rest ih =>
    obtain ⟨k2, c, s⟩ := f
    rcases List.mem_cons.mp h with h | h
    · subst h
      simp [accLookup]
    · have hk2 : k2 ≠ e.1 := by
        intro hk
        have : k2 ∈ accKeys rest := by
          rw [hk]
          exact List.mem_map_of_mem Prod.fst h
        exact (List.nodup_cons.mp hnd).1 this
      simp [accLookup, hk2]
      exact ih (List.nodup_cons.mp hnd).2 h

/-- Accumulator update viewed through the lookup at the updated key. -/
lemma accLookup_update_self (res : Acc) (k : NetworkName) (p : ℚ) :
    accLookup (accUpdate res k p) k = combineOpt (accLookup res k) 1 p := by
  induction res with
  | nil => simp [accUpdate, accLookup, combineOpt]
  | cons e rest ih =>
    obtain ⟨k2, c, s⟩ := e
    by_cases hk : k2 = k
    · subst hk
      simp [accUpdate, accLookup, combineOpt]
    · simp [accUpdate, accLookup, hk, ih]

/-- Accumulator update leaves the lookup at every other key unchanged. -/
lemma accLookup_update_ne {res : Acc} {k k2 : NetworkName} (p : ℚ) (h : k2 ≠ k) :
    accLookup (accUpdate res k p) k2 = accLookup res k2 := by
  induction res with
  | nil => simp [accUpdate, accLookup, Ne.symm h]
  | cons e rest ih =>
    obtain ⟨k3, c, s⟩ := e
    by_cases hk : k3 = k
    · subst hk
      have : k3 ≠ k2 := fun h2 => h (h2.symm)
      simp [accUpdate, accLookup, this]
    · by_cases hk2 : k3 = k2
      · subst hk2
        simp [accUpdate, accLookup, hk]
      · simp [accUpdate, accLookup, hk, hk2, ih]

/-- Updating a present key does not change the key list. -/
lemma accKeys_update_mem {res : Acc} {k : NetworkName} (p : ℚ)
    (h : k ∈ accKeys res) : accKeys (accUpdate res k p) = accKeys res := by
  induction res with
  | nil => simp [accKeys] at h
  | cons e rest ih =>
    obtain ⟨k2, c, s⟩ := e
    by_cases hk : k2 = k
    · subst hk
      simp [accUpdate, accKeys]
    · have h2 : k ∈ accKeys rest := by
        rcases List.mem_cons.mp h with h | h
        · exact absurd h.symm hk
        · exact h
      have hstep : accUpdate ((k2, c, s) :: rest) k p = (k2, c, s) :: accUpdate rest k p := by
        simp [accUpdate, hk]
      rw [hstep]
      show k2 :: accKeys (accUpdate rest k p) = k2 :: accKeys rest
      rw [ih h2]

/-- Updating an absent key appends it to the key list. -/
lemma accKeys_update_not_mem {res : Acc} {k : NetworkName} (p : ℚ)
    (h : k ∉ accKeys res) : accKeys (accUpdate res k p) = accKeys res ++ [k] := by
  induction res with
  | nil => simp [accUpdate, accKeys]
  | cons e rest ih =>
    obtain ⟨k2, c, s⟩ := e
    have hk : k2 ≠ k := by
      intro hk
      exact h (by simp [accKeys, hk])
    have h2 : k ∉ accKeys rest := fun h2 => h (List.mem_cons_of_mem _ h2)
    have hstep : accUpdate ((k2, c, s) :: rest) k p = (k2, c, s) :: accUpdate rest k p := by
      simp [accUpdate, hk]
    rw [hstep]
    show k2 :: accKeys (accUpdate rest k p) = (k2 :: accKeys rest) ++ [k]
    rw [ih h2]
    rfl

/-- Accumulator updates preserve distinctness of the keys. -/
lemma accKeys_update_nodup {res : Acc} {k : NetworkName} (p : ℚ)
    (h : (accKeys res).Nodup) : (accKeys (accUpdate res k p)).Nodup := by
  by_cases hm : k ∈ accKeys res
  · rw [accKeys_update_mem p hm]
    exact h
  · rw [accKeys_update_not_mem p hm]
    rw [List.nodup_append]
    exact ⟨h, List.nodup_singleton k, by simpa [List.disjoint_left] using hm⟩

/-- Accumulator updates keep every count strictly below the u16 modulus. -/
lemma accUpdate_bounded {res : Acc} {k : NetworkName} {p : ℚ}
    (h : ∀ e ∈ res, e.2.1 < U16MOD) : ∀ e ∈ accUpdate res k p, e.2.1 < U16MOD := by
  induction res with
  | nil =>
    intro e he
    simp [accUpdate] at he
    subst he
    exact Nat.mod_lt _ (by norm_num [U16MOD])
  | cons f rest ih =>
    obtain ⟨k2, c, s⟩ := f
    intro e he
    by_cases hk : k2 = k
    · subst hk
      simp [accUpdate] at he
      rcases he with he | he
      · subst he
        exact Nat.mod_lt _ (by norm_num [U16MOD])
      · exact h e (List.mem_cons_of_mem _ he)
    · simp [accUpdate, hk] at he
      rcases he with he | he
      · subst he
        exact h _ (List.mem_cons_self _ _)
      · exact ih (fun e2 he2 => h e2 (List.mem_cons_of_mem _ he2)) e he

/-- A ticker resolving to the network is counted once more at the head. -/
lemma countFor_cons_self {t : Ticker} {k : NetworkName} (l : List Ticker)
    (h : resolveSpec t.symbol = some k) :
    countFor k (t :: l) = countFor k l + 1 := by
  simp [countFor, List.filter_cons, h]

/-- A ticker resolving elsewhere leaves the count unchanged. -/
lemma countFor_cons_ne {t : Ticker} {k : NetworkName} (l : List Ticker)
    (h : ¬ resolveSpec t.symbol = some k) :
    countFor k (t :: l) = countFor k l := by
  simp [countFor, List.filter_cons, h]

/-- A ticker resolving to the network adds its price at the head of the sum. -/
lemma sumFor_cons_self {t : Ticker} {k : NetworkName} (l : List Ticker)
    (h : resolveSpec t.symbol = some k) :
    sumFor k (t :: l) = t.price + sumFor k l := by
  simp [sumFor, List.filter_cons, h]

/-- A ticker resolving elsewhere leaves the sum unchanged. -/
lemma sumFor_cons_ne {t : Ticker} {k : NetworkName} (l : List Ticker)
    (h : ¬ resolveSpec t.symbol = some k) :
    sumFor k (t :: l) = sumFor k l := by
  simp [sumFor, List.filter_cons, h]

/-- A network with zero matching tickers has a zero matching price sum. -/
lemma sumFor_eq_zero {k : NetworkName} {l : List Ticker}
    (h : countFor k l = 0) : sumFor k l = 0 := by
  unfold countFor at h
  unfold sumFor
  rw [List.length_eq_zero.mp h]
  rfl

/-- A nonzero count exhibits a ticker of the batch resolving to the network. -/
lemma countFor_pos_exists {k : NetworkName} {l : List Ticker}
    (h : countFor k l ≠ 0) : ∃ t ∈ l, resolveSpec t.symbol = some k := by
  unfold countFor at h
  have h2 : (l.filter (fun t => decide (resolveSpec t.symbol = some k))) ≠ [] := by
    intro h3
    rw [h3] at h
    exact h rfl
  obtain ⟨t, ht⟩ := List.exists_mem_of_ne_nil _ h2
  obtain ⟨hmem, hprop⟩ := List.mem_filter.mp ht
  exact ⟨t, hmem, of_decide_eq_true hprop⟩

/-- Absorbing no tickers is the identity on bounded lookup results. -/
lemma combineOpt_zero {old : Option (ℕ × ℚ)}
    (h : ∀ c s, old = some (c, s) → c < U16MOD) :
    combineOpt old 0 0 = old := by
  cases old with
  | none => rfl
  | some cs =>
    obtain ⟨c, s⟩ := cs
    simp [combineOpt, Nat.mod_eq_of_lt (h c s rfl)]

/-- Absorbing one ticker and then a remainder is absorbing them together. -/
lemma combineOpt_succ (old : Option (ℕ × ℚ)) (p q : ℚ) (n : ℕ) :
    combineOpt (combineOpt old 1 p) n q = combineOpt old (n + 1) (p + q) := by
  cases old with
  | none =>
    simp [combineOpt, Nat.add_comm 1 n]
  | some cs =>
    obtain ⟨c, s⟩ := cs
    simp [combineOpt, Nat.mod_add_mod, add_assoc, Nat.add_assoc, Nat.add_comm 1 n]

/-- Main invariant of the aggregation fold: over a consistent memo and a batch
of valid symbols, the fold succeeds; the memo stays consistent, counts stay
below the u16 modulus, keys stay distinct, and the lookup at every network
advances by the count (modulo 2^16) and the in-order price sum of the
tickers of the batch resolving to it. -/
lemma runFold_spec (tickers : List Ticker) : ∀ (cache : Memo) (res : Acc),
    MemoOK cache →
    (∀ t ∈ tickers, (resolveSpec t.symbol).isSome) →
    (∀ e ∈ res, e.2.1 < U16MOD) →
    ∃ res2 cache2, runFold tickers cache res = Except.ok (res2, cache2) ∧
      MemoOK cache2 ∧
      (∀ e ∈ res2, e.2.1 < U16MOD) ∧
      (∀ k, accLookup res2 k =
        combineOpt (accLookup res k) (countFor k tickers) (sumFor k tickers)) ∧
      ((accKeys res).Nodup → (accKeys res2).Nodup) := by
  induction tickers with
  | nil =>
    intro cache res hm _ hb
    refine ⟨res, cache, rfl, hm, hb, fun k => ?_, fun h => h⟩
    have h0 : countFor k [] = 0 := rfl
    have hs : sumFor k [] = 0 := rfl
    rw [h0, hs]
    exact (combineOpt_zero (fun c s hcs => hb _ (accLookup_mem hcs))).symm
  | cons t rest ih =>
    intro cache res hm hv hb
    obtain ⟨v, hv0⟩ := Option.isSome_iff_exists.mp (hv t (List.mem_cons_self _ _))
    obtain ⟨cache1, hok, hm1⟩ := resolve_complete hm hv0
    obtain ⟨res2, cache2, hrun, hm2, hb2, hlook, hnd⟩ :=
      ih cache1 (accUpdate res v t.price) hm1
        (fun t2 ht2 => hv t2 (List.mem_cons_of_mem _ ht2))
        (accUpdate_bounded hb)
    refine ⟨res2, cache2, ?_, hm2, hb2, ?_, ?_⟩
    · unfold runFold
      rw [hok]
      exact hrun
    · intro k
      by_cases hk : k = v
      · subst hk
        rw [hlook k, accLookup_update_self,
          combineOpt_succ, countFor_cons_self rest hv0, sumFor_cons_self rest hv0]
      · have hne : ¬ resolveSpec t.symbol = some k := by
          rw [hv0]
          exact fun h2 => hk (Option.some.inj h2).symm
        rw [hlook k, accLookup_update_ne t.price hk,
          countFor_cons_ne rest hne, sumFor_cons_ne rest hne]
    · intro h
      exact hnd (accKeys_update_nodup t.price h)

/-- A batch containing a ticker with an unknown symbol makes the fold abort
with UnknownSymbol, whatever valid tickers preceded it. -/
lemma runFold_err (tickers : List Ticker) : ∀ (cache : Memo) (res : Acc),
    MemoOK cache →
    (∃ t ∈ tickers, resolveSpec t.symbol = none) →
    runFold tickers cache res = Except.error AggError.UnknownSymbol := by
  induction tickers with
  | nil =>
    intro cache res _ h
    obtain ⟨t, ht, _⟩ := h
    exact absurd ht (List.not_mem_nil t)
  | cons t rest ih =>
    intro cache res hm h
    cases hr : resolveSpec t.symbol with
    | none =>
      unfold runFold
      rw [resolve_fail hm hr]
    | some v =>
      obtain ⟨cache1, hok, hm1⟩ := resolve_complete hm hr
      have h2 : ∃ t2 ∈ rest, resolveSpec t2.symbol = none := by
        obtain ⟨t2, ht2, hnone⟩ := h
        rcases List.mem_cons.mp ht2 with ht2 | ht2
        · subst ht2
          rw [hr] at hnone
          exact absurd hnone (by simp)
        · exact ⟨t2, ht2, hnone⟩
      unfold runFold
      rw [hok]
      exact ih cache1 (accUpdate res v t.price) hm1 h2

/-- Finalization keeps keys and rewrites each looked-up entry to
(count, sum / count). -/
lemma accLookup_finalize (res : Acc) (k : NetworkName) :
    accLookup (finalize res) k =
      (accLookup res k).map (fun cs => (cs.1, cs.2 / (cs.1 : ℚ))) := by
  induction res with
  | nil => rfl
  | cons e rest ih =>
    obtain ⟨k2, c, s⟩ := e
    by_cases hk : k2 = k
    · subst hk
      simp [finalize, accLookup]
    · simp only [finalize, List.map_cons] at ih ⊢
      simp [accLookup, hk, ih]

/-- Finalization does not change the key list. -/
lemma accKeys_finalize (res : Acc) : accKeys (finalize res) = accKeys res := by
  unfold accKeys finalize
  rw [List.map_map]
  rfl

/-- Characterization of a successful aggregation: for a batch of valid symbols,
`test` succeeds, keys are distinct, and the lookup at each network is the
wrapped count paired with the in-order price sum divided by that wrapped
count — present exactly when the count is nonzero. -/
lemma test_ok (tickers : List Ticker)
    (hv : ∀ t ∈ tickers, (resolveSpec t.symbol).isSome) :
    ∃ r, test tickers = Except.ok r ∧ (accKeys r).Nodup ∧
      ∀ k, accLookup r k =
        if countFor k tickers = 0 then none
        else some (countFor k tickers % U16MOD,
          sumFor k tickers / ((countFor k tickers % U16MOD : ℕ) : ℚ)) := by
  obtain ⟨res2, cache2, hrun, _, _, hlook, hnd⟩ :=
    runFold_spec tickers [] [] (fun p hp => absurd hp (List.not_mem_nil p))
      hv (fun e he => absurd he (List.not_mem_nil e))
  refine ⟨finalize res2, ?_, ?_, ?_⟩
  · unfold test
    rw [hrun]
  · rw [accKeys_finalize]
    exact hnd List.nodup_nil
  · intro k
    rw [accLookup_finalize, hlook k]
    have hnone : accLookup ([] : Acc) k = none := rfl
    rw [hnone]
    unfold combineOpt
    by_cases h0 : countFor k tickers = 0
    · simp [h0]
    · simp [h0]

/-- A batch containing a ticker with an unknown symbol makes `test` fail with
UnknownSymbol and produce no result. -/
lemma test_err (tickers : List Ticker)
    (h : ∃ t ∈ tickers, resolveSpec t.symbol = none) :
    test tickers = Except.error AggError.UnknownSymbol := by
  unfold test
  rw [runFold_err tickers [] [] (fun p hp => absurd hp (List.not_mem_nil p)) h]

/-- A successful aggregation certifies that every symbol of the batch is
known. -/
lemma test_ok_valid {tickers : List Ticker} {r : Acc}
    (h : test tickers = Except.ok r) :
    ∀ t ∈ tickers, (resolveSpec t.symbol).isSome := by
  intro t ht
  cases hr : resolveSpec t.symbol with
  | some v => rfl
  | none =>
    rw [test_err tickers ⟨t, ht, hr⟩] at h
    exact absurd h (by simp)

/-- Every key of a successful aggregation result is a network of the image of
the static table. -/
lemma test_keys_image {tickers : List Ticker} {r : Acc}
    (h : test tickers = Except.ok r) :
    ∀ k ∈ accKeys r, k ∈ TRACK.map Prod.snd := by
  intro k hk
  obtain ⟨r2, hok, _, hlook⟩ := test_ok tickers (test_ok_valid h)
  rw [h] at hok
  obtain rfl : r = r2 := Except.ok.inj hok
  have hlk : accLookup r k ≠ none := fun h2 => accLookup_eq_none_iff.mp h2 hk
  rw [hlook k] at hlk
  by_cases h0 : countFor k tickers = 0
  · rw [if_pos h0] at hlk
    exact absurd rfl hlk
  · obtain ⟨t, _, hres⟩ := countFor_pos_exists h0
    exact resolveSpec_mem_image hres

/-- Sequences of resolve calls preserve memo consistency. -/
lemma foldl_resolveStep_memoOK (symbols : List String) :
    ∀ (memo : Memo), MemoOK memo → MemoOK (symbols.foldl resolveStep memo) := by
  induction symbols with
  | nil => exact fun memo hm => hm
  | cons s rest ih =>
    intro memo hm
    rw [List.foldl_cons]
    refine ih _ ?_
    unfold resolveStep
    cases hr : name_from_symbol s memo with
    | error e => exact hm
    | ok p =>
      obtain ⟨v, memo2⟩ := p
      exact (resolve_sound hm hr).2.1

/-- The symbol S1 spec-resolves to N1. -/
lemma resolveSpec_S1 : resolveSpec "S1" = some NetworkName.N1 := rfl

/-- Every ticker of a replicated S1 batch has a known symbol. -/
lemma replicate_valid (n : ℕ) :
    ∀ t ∈ List.replicate n (Ticker.mk "S1" 1), (resolveSpec t.symbol).isSome := by
  intro t ht
  rw [List.eq_of_mem_replicate ht]
  rfl

/-- Every ticker of the 2^16 batch has a known symbol. -/
lemma bigBatch_valid : ∀ t ∈ bigBatch, (resolveSpec t.symbol).isSome :=
  replicate_valid 65536

/-- All tickers of a replicated S1 batch count towards N1. -/
lemma countFor_replicate (n : ℕ) :
    countFor NetworkName.N1 (List.replicate n (Ticker.mk "S1" 1)) = n := by
  induction n with
  | zero => rfl
  | succ m ih =>
    rw [List.replicate_succ, countFor_cons_self _ resolveSpec_S1, ih]

/-- The price sum of a replicated S1 batch of unit prices is the length. -/
lemma sumFor_replicate (n : ℕ) :
    sumFor NetworkName.N1 (List.replicate n (Ticker.mk "S1" 1)) = (n : ℚ) := by
  induction n with
  | zero => rfl
  | succ m ih =>
    rw [List.replicate_succ, sumFor_cons_self _ resolveSpec_S1, ih]
    push_cast
    ring

/-- The N1 count of the 2^16 batch is 2^16. -/
lemma countFor_bigBatch : countFor NetworkName.N1 bigBatch = 65536 :=
  countFor_replicate 65536

/-- The table scan of find? returns the entry at the first matching index. -/
lemma find_first_match (s : String) (table : List (String × NetworkName)) :
    ∀ (i : ℕ) (hi : i < table.length),
      (table.get ⟨i, hi⟩).1 = s →
      (∀ (j : ℕ) (hj : j < table.length), j < i → (table.get ⟨j, hj⟩).1 ≠ s) →
      table.find? (fun p => decide (p.1 = s)) = some (table.get ⟨i, hi⟩) := by
  induction table with
  | nil =>
    intro i hi
    exact absurd hi (Nat.not_lt_zero i)
  | cons a rest ih =>
    intro i hi hget hfirst
    cases i with
    | zero =>
      exact List.find?_cons_of_pos _ (by simpa using hget)
    | succ n =>
      have hh : a.1 ≠ s := hfirst 0 (Nat.succ_pos _) (Nat.succ_pos n)
      rw [List.find?_cons_of_neg _ (by simpa using hh)]
      exact ih n (Nat.lt_of_succ_lt_succ hi) hget
        (fun j hj hji => hfirst (j + 1) (Nat.succ_lt_succ hj) (Nat.succ_lt_succ hji))

/-- C1, counterexample: on the all-valid batch of 2^16 S1-tickers, the entry
for N1 does not carry the number of tickers that resolved to N1 (65536): the
u16 count has wrapped, so the claim that the count equals the number of input
tickers fails on this batch. -/
theorem C1_counterexample :
    ¬ ∃ r m, test bigBatch = Except.ok r ∧
      accLookup r NetworkName.N1 = some (65536, m) := by
  rintro ⟨r, m, hok, hlk⟩
  obtain ⟨r2, hok2, _, hlook⟩ := test_ok bigBatch bigBatch_valid
  rw [hok] at hok2
  obtain rfl : r = r2 := Except.ok.inj hok2
  have h := hlook NetworkName.N1
  rw [countFor_bigBatch] at h
  have h0 : (65536 : ℕ) % U16MOD = 0 := by norm_num [U16MOD]
  rw [hlk, h0] at h
  simp at h

/-- C1, amended: for every batch in which every symbol is present in the
static table and at most 65535 tickers resolve to each network, `test`
returns a map with distinct keys holding exactly one entry per distinct
network some ticker resolved to; that entry carries the exact number of
tickers that resolved to the network and the in-order price sum divided by
that count. Counts beyond 65535 per network wrap modulo 2^16 (see the
counterexample), hence the cap. -/
theorem C1_agg_correct (tickers : List Ticker)
    (hv : ∀ t ∈ tickers, (resolveSpec t.symbol).isSome)
    (hcap : ∀ k, countFor k tickers ≤ 65535) :
    ∃ r, test tickers = Except.ok r ∧ (accKeys r).Nodup ∧
      ∀ k, accLookup r k =
        if countFor k tickers = 0 then none
        else some (countFor k tickers,
          sumFor k tickers / (countFor k tickers : ℚ)) := by
  obtain ⟨r, hok, hnd, hlook⟩ := test_ok tickers hv
  refine ⟨r, hok, hnd, fun k => ?_⟩
  have hlt : countFor k tickers < U16MOD :=
    lt_of_le_of_lt (hcap k) (by norm_num [U16MOD])
  rw [hlook k, Nat.mod_eq_of_lt hlt]

/-- C1, witness: the amended aggregation theorem applied to a concrete
one-ticker batch. -/
theorem C1_witness :
    ∃ r, test [Ticker.mk "S1" 1] = Except.ok r ∧ (accKeys r).Nodup ∧
      ∀ k, accLookup r k =
        if countFor k [Ticker.mk "S1" 1] = 0 then none
        else some (countFor k [Ticker.mk "S1" 1],
          sumFor k [Ticker.mk "S1" 1] / (countFor k [Ticker.mk "S1" 1] : ℚ)) :=
  C1_agg_correct [Ticker.mk "S1" 1] (by decide) (by decide)

/-- C2: a batch containing a ticker whose symbol matches no table entry makes
`test` fail with UnknownSymbol; no partial result is produced, since the
whole call returns the error and no mapping. -/
theorem C2_unknown_aborts (tickers : List Ticker)
    (h : ∃ t ∈ tickers, resolveSpec t.symbol = none) :
    test tickers = Except.error AggError.UnknownSymbol :=
  test_err tickers h

/-- C2, witness: aggregation of a batch holding the unknown symbol foo. -/
theorem C2_witness :
    test [Ticker.mk "foo" 1] = Except.error AggError.UnknownSymbol :=
  C2_unknown_aborts [Ticker.mk "foo" 1] ⟨Ticker.mk "foo" 1, List.Mem.head _, rfl⟩

/-- C3: if the symbol is cached, resolution returns the cached network with
the memo unchanged and does not depend on the table at all (no scan);
otherwise it returns the network of the first table entry matching the symbol
by exact case-sensitive equality after prepending that (symbol, network) pair
to the memo, and fails with UnknownSymbol when no entry matches. -/
theorem C3_resolve_spec (table : List (String × NetworkName)) (symbol : String)
    (memo : Memo) :
    (∀ v, memoLookup memo symbol = some v →
      ∀ table2, name_from_symbolGen table2 symbol memo = Except.ok (v, memo)) ∧
    (memoLookup memo symbol = none →
      ((∀ p ∈ table, p.1 ≠ symbol) →
        name_from_symbolGen table symbol memo = Except.error AggError.UnknownSymbol) ∧
      (∀ i : Fin table.length, (table.get i).1 = symbol →
        (∀ j : Fin table.length, (j : ℕ) < (i : ℕ) → (table.get j).1 ≠ symbol) →
        name_from_symbolGen table symbol memo =
          Except.ok ((table.get i).2, (symbol, (table.get i).2) :: memo))) := by
  constructor
  · intro v hv table2
    exact resolve_hit hv table2
  · intro hnone
    constructor
    · intro hall
      unfold name_from_symbolGen
      rw [hnone]
      have hf : table.find? (fun p => decide (p.1 = symbol)) = none := by
        rw [List.find?_eq_none]
        intro p hp
        simpa using hall p hp
      rw [hf]
    · intro i hget hfirst
      unfold name_from_symbolGen
      rw [hnone]
      have hf := find_first_match symbol table i i.isLt hget
        (fun j hj hji => hfirst ⟨j, hj⟩ hji)
      rw [hf]
      rcases hp : table.get i with ⟨key, value⟩
      rw [hp] at hget
      simp only at hget
      subst hget
      rfl

/-- C3, witness: the miss path of the resolution theorem at the first table
entry, over the empty memo. -/
theorem C3_witness :
    name_from_symbolGen TRACK "S1" [] =
      Except.ok (NetworkName.N1, [("S1", NetworkName.N1)]) := by
  have h := (C3_resolve_spec TRACK "S1" []).2 rfl
  exact h.2 ⟨0, by norm_num [TRACK]⟩ rfl
    (fun j hj => absurd hj (Nat.not_lt_zero _))

/-- C4: after a successful resolution, a second resolution of the same symbol
over the returned memo returns the same network and leaves the memo unchanged,
whatever table is supplied (so no table scan can occur); a cache hit leaves
the memo untouched and a cache miss prepends exactly the one new
(symbol, network) pair. -/
theorem C4_resolve_idempotent (symbol : String) (memo : Memo) (v : NetworkName)
    (memo2 : Memo) (h : name_from_symbol symbol memo = Except.ok (v, memo2)) :
    (∀ table2, name_from_symbolGen table2 symbol memo2 = Except.ok (v, memo2)) ∧
    (memoLookup memo symbol = some v → memo2 = memo) ∧
    (memoLookup memo symbol = none → memo2 = (symbol, v) :: memo) := by
  unfold name_from_symbol name_from_symbolGen at h
  cases hc : memoLookup memo symbol with
  | some w =>
    rw [hc] at h
    have h2 : (w, memo) = (v, memo2) := Except.ok.inj h
    obtain ⟨hv, hmemo⟩ := Prod.ext_iff.mp h2
    simp only at hv hmemo
    subst hv
    subst hmemo
    refine ⟨resolve_hit hc, fun _ => rfl, fun hnone => ?_⟩
    simp [hc] at hnone
  | none =>
    rw [hc] at h
    cases hf : TRACK.find? (fun p => decide (p.1 = symbol)) with
    | none =>
      rw [hf] at h
      exact absurd h (by simp)
    | some p =>
      obtain ⟨key, value⟩ := p
      rw [hf] at h
      have h2 : (value, (key, value) :: memo) = (v, memo2) := Except.ok.inj h
      obtain ⟨hv, hmemo⟩ := Prod.ext_iff.mp h2
      simp only at hv hmemo
      subst hv
      have hkey : key = symbol := by
        have := List.find?_some hf
        simpa using this
      subst hkey
      refine ⟨?_, ?_, fun _ => hmemo.symm⟩
      · intro table2
        have hhit : memoLookup memo2 key = some value := by
          rw [← hmemo]
          simp [memoLookup]
        exact resolve_hit hhit table2
      · intro hsome
        simp [hc] at hsome

/-- C4, witness: the idempotence theorem applied to the resolution of S1 over
the empty memo. -/
theorem C4_witness :
    name_from_symbolGen TRACK "S1" [("S1", NetworkName.N1)] =
      Except.ok (NetworkName.N1, [("S1", NetworkName.N1)]) ∧
    ([("S1", NetworkName.N1)] : Memo) = ("S1", NetworkName.N1) :: [] := by
  have h := C4_resolve_idempotent "S1" [] NetworkName.N1
    [("S1", NetworkName.N1)] rfl
  exact ⟨h.1 TRACK, h.2.2 rfl⟩

/-- C5: after any sequence of resolve calls starting from the empty memo,
every memo entry agrees with the first matching entry of the static table for
its symbol and its network lies in the image of the table; and every network
key of a successful aggregation result lies in that image: resolution never
invents a network absent from the table. -/
theorem C5_memo_consistency :
    (∀ symbols : List String, ∀ p ∈ resolveMany symbols,
      resolveSpec p.1 = some p.2 ∧ p.2 ∈ TRACK.map Prod.snd) ∧
    (∀ (tickers : List Ticker) (r : Acc), test tickers = Except.ok r →
      ∀ k ∈ accKeys r, k ∈ TRACK.map Prod.snd) := by
  constructor
  · intro symbols p hp
    have hm := foldl_resolveStep_memoOK symbols []
      (fun q hq => absurd hq (List.not_mem_nil q))
    have h1 := hm p hp
    exact ⟨h1, resolveSpec_mem_image h1⟩
  · intro tickers r h k hk
    exact test_keys_image h k hk

/-- C5, witness: the consistency theorem applied to the memo left by one
resolve call on S1. -/
theorem C5_witness :
    resolveSpec "S1" = some NetworkName.N1 ∧
      NetworkName.N1 ∈ TRACK.map Prod.snd := by
  have hmem : ("S1", NetworkName.N1) ∈ resolveMany ["S1"] := by
    show ("S1", NetworkName.N1) ∈ [("S1", NetworkName.N1)]
    exact List.mem_singleton.mpr rfl
  exact C5_memo_consistency.1 ["S1"] ("S1", NetworkName.N1) hmem

/-- C6: the empty batch aggregates to the empty mapping, and every network to
which no ticker of a batch resolved is absent from a successful result — no
zero-filled entries. -/
theorem C6_empty_and_absent :
    test [] = Except.ok [] ∧
    ∀ (tickers : List Ticker) (r : Acc) (k : NetworkName),
      test tickers = Except.ok r → countFor k tickers = 0 →
      accLookup r k = none := by
  refine ⟨rfl, ?_⟩
  intro tickers r k h h0
  obtain ⟨r2, hok, _, hlook⟩ := test_ok tickers (test_ok_valid h)
  rw [h] at hok
  obtain rfl : r = r2 := Except.ok.inj hok
  rw [hlook k, if_pos h0]

/-- C6, witness: a batch with one S2 ticker leaves N1 absent from the result. -/
theorem C6_witness :
    test [Ticker.mk "S2" 1] = Except.ok [(NetworkName.N2, 1, 1)] ∧
    accLookup [(NetworkName.N2, 1, 1)] NetworkName.N1 = none := by
  have h : test [Ticker.mk "S2" 1] = Except.ok [(NetworkName.N2, 1, 1)] := by
    with_unfolding_all rfl
  exact ⟨h, C6_empty_and_absent.2 [Ticker.mk "S2" 1] [(NetworkName.N2, 1, 1)]
    NetworkName.N1 h (by decide)⟩

/-- C7: on the concrete batch of the test scenario (prices as exact rationals)
aggregation returns exactly N1 with (3, 1/5), N2 with (3, 1/2) and N3 with
(2, 3/4) — the counts 3, 3, 2 and the means 0.2, 0.5, 0.75, exact where the
f32 computation holds within epsilon. -/
theorem C7_concrete_batch :
    ∃ r, test batch7 = Except.ok r ∧ (accKeys r).Nodup ∧
      accLookup r NetworkName.N1 = some (3, 1/5) ∧
      accLookup r NetworkName.N2 = some (3, 1/2) ∧
      accLookup r NetworkName.N3 = some (2, 3/4) := by
  refine ⟨[(NetworkName.N1, 3, 1/5), (NetworkName.N2, 3, 1/2),
    (NetworkName.N3, 2, 3/4)], ?_, by decide, rfl, rfl, rfl⟩
  with_unfolding_all rfl

/-- C8: symbol matching is case-sensitive exact equality: S1, S2 and s3
resolve to N1, N2, N3 from an empty memo, while S3 (uppercase, unlisted) and
foo fail with UnknownSymbol rather than defaulting to any network. -/
theorem C8_case_sensitive :
    name_from_symbol "S1" [] = Except.ok (NetworkName.N1, [("S1", NetworkName.N1)]) ∧
    name_from_symbol "S2" [] = Except.ok (NetworkName.N2, [("S2", NetworkName.N2)]) ∧
    name_from_symbol "s3" [] = Except.ok (NetworkName.N3, [("s3", NetworkName.N3)]) ∧
    name_from_symbol "S3" [] = Except.error AggError.UnknownSymbol ∧
    name_from_symbol "foo" [] = Except.error AggError.UnknownSymbol :=
  ⟨rfl, rfl, rfl, rfl, rfl⟩

/-- C9, counterexample: on the batch of 2^16 S1-tickers the fold succeeds and
the accumulator holds an entry whose count is 0 — the u16 count wrapped — so
the claim that every entry present when means are computed has count at least
1 fails, and the finalization divides by a zero count on this batch. -/
theorem C9_counterexample :
    ∃ res cache, runFold bigBatch [] [] = Except.ok (res, cache) ∧
      ¬ (∀ e ∈ res, 1 ≤ e.2.1) := by
  obtain ⟨res2, cache2, hrun, _, _, hlook, _⟩ :=
    runFold_spec bigBatch [] [] (fun p hp => absurd hp (List.not_mem_nil p))
      bigBatch_valid (fun e he => absurd he (List.not_mem_nil e))
  refine ⟨res2, cache2, hrun, fun hall => ?_⟩
  have h := hlook NetworkName.N1
  rw [countFor_bigBatch] at h
  have h0 : (65536 : ℕ) % U16MOD = 0 := by norm_num [U16MOD]
  simp only [accLookup, combineOpt, h0] at h
  rw [if_neg (by norm_num)] at h
  have hmem := accLookup_mem h
  exact Nat.not_succ_le_zero 0 (hall _ hmem)

/-- C9, amended: every entry of the accumulator present when means are
computed belongs to a network with at least one ticker, and its stored count
is at least 1 — hence a nonzero rational divisor — provided at most 65535
tickers of the batch resolve to that network; beyond that the u16 count wraps
and can reach 0 (see the counterexample). -/
theorem C9_count_pos (tickers : List Ticker) (res : Acc) (cache : Memo)
    (h : runFold tickers [] [] = Except.ok (res, cache)) :
    ∀ e ∈ res, countFor e.1 tickers ≤ 65535 →
      1 ≤ e.2.1 ∧ ((e.2.1 : ℚ) ≠ 0) := by
  have hv : ∀ t ∈ tickers, (resolveSpec t.symbol).isSome := by
    intro t ht
    cases hr : resolveSpec t.symbol with
    | some v => rfl
    | none =>
      rw [runFold_err tickers [] [] (fun p hp => absurd hp (List.not_mem_nil p))
        ⟨t, ht, hr⟩] at h
      exact absurd h (by simp)
  obtain ⟨res2, cache2, hrun, _, _, hlook, hnd⟩ :=
    runFold_spec tickers [] [] (fun p hp => absurd hp (List.not_mem_nil p))
      hv (fun e he => absurd he (List.not_mem_nil e))
  rw [h] at hrun
  have hpair : (res, cache) = (res2, cache2) := Except.ok.inj hrun
  obtain ⟨hres, _⟩ := Prod.ext_iff.mp hpair
  simp only at hres
  subst hres
  intro e he hcap
  have hlk := accLookup_of_mem (hnd List.nodup_nil) he
  rw [hlook e.1] at hlk
  by_cases h0 : countFor e.1 tickers = 0
  · simp only [accLookup, combineOpt, h0, if_pos] at hlk
    exact absurd hlk (by simp)
  · simp only [accLookup, combineOpt] at hlk
    rw [if_neg h0] at hlk
    have hmod : countFor e.1 tickers % U16MOD = countFor e.1 tickers :=
      Nat.mod_eq_of_lt (lt_of_le_of_lt hcap (by norm_num [U16MOD]))
    rw [hmod] at hlk
    have hc1 : e.2.1 = countFor e.1 tickers := by
      have := Prod.ext_iff.mp (Option.some.inj hlk)
      simp only at this
      exact this.1.symm
    constructor
    · omega
    · rw [hc1]
      exact_mod_cast h0

/-- C9, witness: the amended positivity theorem applied to the one-entry
accumulator of a one-ticker batch. -/
theorem C9_witness :
    runFold [Ticker.mk "S1" 1] [] [] =
      Except.ok ([(NetworkName.N1, 1, 1)], [("S1", NetworkName.N1)]) ∧
    1 ≤ ((NetworkName.N1, (1 : ℕ), (1 : ℚ)) : NetworkName × ℕ × ℚ).2.1 ∧
    ((((NetworkName.N1, (1 : ℕ), (1 : ℚ)) : NetworkName × ℕ × ℚ).2.1 : ℚ) ≠ 0) := by
  have h : runFold [Ticker.mk "S1" 1] [] [] =
      Except.ok ([(NetworkName.N1, 1, 1)], [("S1", NetworkName.N1)]) := by
    with_unfolding_all rfl
  exact ⟨h, C9_count_pos [Ticker.mk "S1" 1] [(NetworkName.N1, 1, 1)]
    [("S1", NetworkName.N1)] h (NetworkName.N1, 1, 1) (List.Mem.head _) (by decide)⟩

/-- C10: for every all-valid batch, each count stored in the result is the
number of tickers that resolved to that network reduced modulo 2^16 (u16
wrapping semantics, as in a release build where overflow checks are off), and
it is that exact number whenever at most 65535 tickers resolved there. -/
theorem C10_count_mod (tickers : List Ticker)
    (hv : ∀ t ∈ tickers, (resolveSpec t.symbol).isSome) :
    ∃ r, test tickers = Except.ok r ∧
      ∀ (k : NetworkName) (c : ℕ) (m : ℚ), accLookup r k = some (c, m) →
        c = countFor k tickers % U16MOD ∧
        (countFor k tickers ≤ 65535 → c = countFor k tickers) := by
  obtain ⟨r, hok, _, hlook⟩ := test_ok tickers hv
  refine ⟨r, hok, ?_⟩
  intro k c m hlk
  rw [hlook k] at hlk
  by_cases h0 : countFor k tickers = 0
  · rw [if_pos h0] at hlk
    exact absurd hlk (by simp)
  · rw [if_neg h0] at hlk
    have hpair := Prod.ext_iff.mp (Option.some.inj hlk)
    simp only at hpair
    have hc : countFor k tickers % U16MOD = c := hpair.1
    refine ⟨hc.symm, fun hcap => ?_⟩
    rw [← hc, Nat.mod_eq_of_lt (lt_of_le_of_lt hcap (by norm_num [U16MOD]))]

/-- C10, witness: the wrapped-count theorem applied to the 2^16 batch, whose
N1 count is 65536 and wraps to 0. -/
theorem C10_witness :
    ∃ r, test bigBatch = Except.ok r ∧
      ∀ (k : NetworkName) (c : ℕ) (m : ℚ), accLookup r k = some (c, m) →
        c = countFor k bigBatch % U16MOD ∧
        (countFor k bigBatch ≤ 65535 → c = countFor k bigBatch) :=
  C10_count_mod bigBatch bigBatch_valid

end BHTest
